import Mathlib

/-!
Verification development for the changeset-conventional-commits core
(`src/utils/index.ts` and the CLI entry point).

JavaScript strings are modelled as `List Char`; the JavaScript regular
expressions used by the source are small enough that each one is translated
into an explicit scanning function, with a comment recording the exact
regex it implements.  External effects (`execSync` git calls) are modelled
as oracle parameters.
-/

namespace ChangesetCC

/-- JavaScript strings, modelled as lists of characters. -/
abbrev Str := List Char

/-- The characters that a JavaScript regexp `.` (without the `s` flag) does
not match: line feed, carriage return, line separator, paragraph separator. -/
def isLineTerm (c : Char) : Bool :=
  c == '\n' || c == '\r' || c == Char.ofNat 0x2028 || c == Char.ofNat 0x2029

/-- JavaScript regexp word character `\w`, i.e. `[A-Za-z0-9_]`
(`Char.isAlphanum` is exactly ASCII letters and digits). -/
def isWordChar (c : Char) : Bool :=
  c.isAlphanum || c == '_'

/-- JavaScript `haystack.includes(needle)`: `needle` occurs contiguously in
`haystack`. -/
def hasInfix (needle : Str) : Str → Bool
  | [] => needle.isEmpty
  | c :: rest => needle.isPrefixOf (c :: rest) || hasInfix needle rest

/-- A `Commit` as in `src/utils/index.ts`: a hash and a message. -/
structure Commit where
  commitHash : Str
  commitMessage : Str
deriving DecidableEq

/-- A logical unit produced by the grouper (`ConventionalMessagesToCommits`
in the source): a changelog message and the hashes it subsumes. -/
structure ConventionalMessagesToCommits where
  changelogMessage : Str
  commitHashes : List Str
deriving DecidableEq

/-- Release severities (the defined values of the source's
string union `'major' | 'minor' | 'patch'`). -/
inductive Severity where
  | major
  | minor
  | patch
deriving DecidableEq

/-- A `ReleaseRule` record.  The optional TS fields `breaking?`/`revert?`
are booleans defaulting to false; `type?` is an optional string; `release`
may be `undefined`, modelled as `none`. -/
structure ReleaseRule where
  breaking : Bool
  revert : Bool
  type : Option Str
  release : Option Severity
deriving DecidableEq

/-- A commit type entry of `defaultCommitTypes` (the `section` label is kept
for fidelity although the source never reads it; renamed because `section`
is a Lean keyword). -/
structure CommitType where
  type : Str
  sectionLabel : Str
deriving DecidableEq

/-- The source's `defaultCommitTypes` table. -/
def defaultCommitTypes : List CommitType :=
  [⟨"feat".toList, "Features".toList⟩,
   ⟨"feature".toList, "Features".toList⟩,
   ⟨"fix".toList, "Bug Fixes".toList⟩,
   ⟨"perf".toList, "Performance Improvements".toList⟩,
   ⟨"revert".toList, "Reverts".toList⟩,
   ⟨"docs".toList, "Documentation".toList⟩,
   ⟨"style".toList, "Styles".toList⟩,
   ⟨"chore".toList, "Miscellaneous Chores".toList⟩,
   ⟨"refactor".toList, "Code Refactoring".toList⟩,
   ⟨"test".toList, "Tests".toList⟩,
   ⟨"build".toList, "Build System".toList⟩,
   ⟨"ci".toList, "Continuous Integration".toList⟩]

/-- The source's `defaultReleaseRules` table, in order: breaking → major,
revert → patch, then one type rule per commit type. -/
def defaultReleaseRules : List ReleaseRule :=
  [⟨true, false, none, some Severity.major⟩,
   ⟨false, true, none, some Severity.patch⟩,
   ⟨false, false, some "feat".toList, some Severity.minor⟩,
   ⟨false, false, some "feature".toList, some Severity.minor⟩,
   ⟨false, false, some "fix".toList, some Severity.patch⟩,
   ⟨false, false, some "perf".toList, some Severity.patch⟩,
   ⟨false, false, some "revert".toList, some Severity.patch⟩,
   ⟨false, false, some "docs".toList, some Severity.patch⟩,
   ⟨false, false, some "style".toList, some Severity.patch⟩,
   ⟨false, false, some "chore".toList, some Severity.patch⟩,
   ⟨false, false, some "refactor".toList, some Severity.patch⟩,
   ⟨false, false, some "test".toList, some Severity.patch⟩,
   ⟨false, false, some "build".toList, some Severity.patch⟩,
   ⟨false, false, some "ci".toList, some Severity.patch⟩]

/-- Scan for a `:` reachable through non-line-terminator characters.
This is the tail semantics of the source regex
`new RegExp(`^${type}(?:\(.*\))?!?:`)`: inside a template literal the
escape `\(` denotes a plain `(`, so the parentheses form a group around
`.*` rather than literal parentheses, and the whole tail after the type is
equivalent to «any non-line-terminator characters, an optional `!`
(absorbable by `.*`), then `:`». -/
def hasColonNoNL : Str → Bool
  | [] => false
  | ':' :: _ => true
  | c :: rest => !isLineTerm c && hasColonNoNL rest

/-- Scan for `!:` reachable through non-line-terminator characters: tail
semantics of `new RegExp(`^${type}(?:\(.*\))?!:`)` in `isBreakingChange`,
where again the template-literal `\(` is a plain `(` so the group is just
an optional `.*`. -/
def hasBangColonNoNL : Str → Bool
  | [] => false
  | '!' :: ':' :: _ => true
  | c :: rest => !isLineTerm c && hasBangColonNoNL rest

/-- The source's `isBreakingChange`: the message contains the literal
`BREAKING CHANGE:` (JS `String.includes`), or some default commit type is a
prefix and the rest of that line contains `!:` (see `hasBangColonNoNL` for
the regex reading). -/
def isBreakingChange (commit : Str) : Bool :=
  hasInfix "BREAKING CHANGE:".toList commit ||
    defaultCommitTypes.any (fun commitType =>
      commitType.type.isPrefixOf commit &&
        hasBangColonNoNL (commit.drop commitType.type.length))

/-- The source's `isRevertChange`: `commit.startsWith('revert')`. -/
def isRevertChange (commit : Str) : Bool :=
  "revert".toList.isPrefixOf commit

/-- The source's `isConventionalCommit`: some default commit type matches
`new RegExp(`^${type}(?:\(.*\))?!?:`)` — with the template-literal escape
reading, the type must be a prefix and a `:` must be reachable through
non-line-terminator characters (see `hasColonNoNL`). -/
def isConventionalCommit (commit : Str) : Bool :=
  defaultCommitTypes.any (fun commitType =>
    commitType.type.isPrefixOf commit &&
      hasColonNoNL (commit.drop commitType.type.length))

/-- One step of the `reduce` inside
`associateCommitsToConventionalCommitMessages`.  The source tests
`!acc.length`; here the empty case is the `none` branch of `getLast?`,
which holds exactly when `acc` is empty.  `acc.slice(0, acc.length - 1)`
is `dropLast`, and `acc[acc.length - 1]` is the `getLast?` value. -/
def associateStep (acc : List ConventionalMessagesToCommits) (curr : Commit) :
    List ConventionalMessagesToCommits :=
  match acc.getLast? with
  | none => [⟨curr.commitMessage, [curr.commitHash]⟩]
  | some last =>
    if isConventionalCommit curr.commitMessage then
      if isConventionalCommit last.changelogMessage then
        acc ++ [⟨curr.commitMessage, [curr.commitHash]⟩]
      else
        acc.dropLast ++ [⟨curr.commitMessage, last.commitHashes ++ [curr.commitHash]⟩]
    else
      acc.dropLast ++ [⟨last.changelogMessage, last.commitHashes ++ [curr.commitHash]⟩]

/-- The source's `associateCommitsToConventionalCommitMessages`: a left
fold of `associateStep` starting from the empty accumulator. -/
def associateCommitsToConventionalCommitMessages (commits : List Commit) :
    List ConventionalMessagesToCommits :=
  commits.foldl associateStep []

/-- The source's `filterFiles`.  A configured ignore pattern (a string or
`RegExp` in TS) is modelled by its match predicate: `pattern file = true`
iff `file.match(pattern)` is truthy. -/
def filterFiles (files : List Str) (ignoredPatterns : List (Str → Bool)) : List Str :=
  files.filter (fun file => ignoredPatterns.all (fun pattern => !pattern file))

/-- A workspace package manifest as used by the source (`packageJson.name`). -/
structure PackageJson where
  name : Str
deriving DecidableEq

/-- A workspace package (`ManyPkgPackage`): directory and manifest. -/
structure ManyPkgPackage where
  dir : Str
  packageJson : PackageJson
deriving DecidableEq

/-- JavaScript `s.replace(target, '')` for a string `target`: remove the
first occurrence of `target` from `s` (identity when there is none; an
empty `target` is found at position 0, also yielding the identity). -/
def replaceFirst (s target : Str) : Str :=
  match s with
  | [] => []
  | c :: rest =>
    if target.isPrefixOf (c :: rest) then (c :: rest).drop target.length
    else c :: replaceFirst rest target

/-- The source's `getChangedPackages`.  `getRepoRoot()` shells out to git,
so the repository root is the ambient parameter `repoRoot`; the source then
uses each root-stripped package directory string as a regular expression in
`file.match(...)`, a run-time regex test modelled by the abstract parameter
`regexTest file dir`. -/
def getChangedPackages (regexTest : Str → Str → Bool) (repoRoot : Str)
    (filesChanged : List Str) (packages : List ManyPkgPackage) : List ManyPkgPackage :=
  packages.filter (fun pkg =>
    filesChanged.any (fun file =>
      regexTest file (replaceFirst pkg.dir (repoRoot ++ "/".toList))))

/-- Head test for the `(!)?:` tail of the source regexes: the string starts
with `:` or with `!:`. -/
def matchesBangColon : Str → Bool
  | ':' :: _ => true
  | '!' :: ':' :: _ => true
  | _ => false

/-- After an opening parenthesis, search for a closing `)` that is followed
by `!?:`, scanning only non-line-terminator characters (the backtracking
choices of `.+`/`.*` inside a literal-parenthesis scope). -/
def scopeCloseSearch : Str → Bool
  | [] => false
  | c :: rest =>
    (c == ')' && matchesBangColon rest) || (!isLineTerm c && scopeCloseSearch rest)

/-- Tail match for `getCommitType`'s regex literal `/^(\w+)(\(.+\))?(!)?:/`
after the leading word: either `!?:` directly, or a literal `(`, at least
one non-line-terminator character, then a `)` followed by `!?:`. -/
def scopeTailMatch : Str → Bool
  | '(' :: c :: rest => !isLineTerm c && scopeCloseSearch rest
  | s => matchesBangColon s

/-- The source's `getCommitType`: match `/^(\w+)(\(.+\))?(!)?:/` (a regex
literal, so here `\(` IS a literal parenthesis) and return capture group 1.
Group 1 is necessarily the maximal `\w+` prefix: shortening it would
require a word character to match `\(`, `!` or `:`, which are not word
characters, so no shorter prefix can complete the match. -/
def getCommitType (commitMessage : Str) : Option Str :=
  let w := commitMessage.takeWhile isWordChar
  if w.isEmpty then none
  else if scopeTailMatch (commitMessage.drop w.length) then some w
  else none

/-- The rule loop of `determineReleaseType`: first rule whose breaking,
revert or type test fires returns that rule's `release`.  The TS guard
`rule.type && rule.type === commitType` treats an empty string as falsy,
hence the `!t.isEmpty` conjunct. -/
def findReleaseRule : List ReleaseRule → Str → Str → Option Severity
  | [], _, _ => none
  | rule :: rules, commitType, changelogMessage =>
    if rule.breaking && isBreakingChange changelogMessage then rule.release
    else if rule.revert && isRevertChange changelogMessage then rule.release
    else if (match rule.type with
             | some t => !t.isEmpty && t == commitType
             | none => false) then rule.release
    else findReleaseRule rules commitType changelogMessage

/-- The source's `determineReleaseType`: extract the commit type; with no
type token the function returns `undefined` (here `none`); otherwise run
the rule loop. -/
def determineReleaseType (changelogMessage : Str) (releaseRules : List ReleaseRule) :
    Option Severity :=
  match getCommitType changelogMessage with
  | none => none
  | some commitType => findReleaseRule releaseRules commitType changelogMessage

/-- A release entry `{ name, type }` of a changeset. -/
structure Release where
  name : Str
  type : Severity
deriving DecidableEq

/-- A `Changeset` as assembled by the source. -/
structure Changeset where
  releases : List Release
  summary : Str
  packagesChanged : List ManyPkgPackage
deriving DecidableEq

/-- Options of `conventionalMessagesWithCommitsToChangesets`.  The TS
destructuring defaults `ignoredFiles` to `[]`; `releaseRules` may be
`undefined`, in which case `determineReleaseType`'s own default table
applies, modelled with `Option` and `getD defaultReleaseRules` at the call
site. -/
structure ChangesetOptions where
  ignoredFiles : List (Str → Bool)
  packages : List ManyPkgPackage
  releaseRules : Option (List ReleaseRule)

/-- The source's `conventionalMessagesWithCommitsToChangesets`.
`getFilesChangedSince` shells out to `git diff --name-only from~1...to`,
modelled by the oracle parameter `filesChangedSince`; `regexTest` and
`repoRoot` are the ambient parameters of `getChangedPackages`.  The
source's `entry.commitHashes[0]` / `[length-1]` accesses are `headD` /
`getLastD` (grouper output always has non-empty hash lists).  The final
`.filter(Boolean)` over nullable entries is `filterMap id`. -/
def conventionalMessagesWithCommitsToChangesets
    (filesChangedSince : Str → Str → List Str) (regexTest : Str → Str → Bool)
    (repoRoot : Str) (entries : List ConventionalMessagesToCommits)
    (options : ChangesetOptions) : List Changeset :=
  (entries.map (fun entry =>
    let filesChanged := filterFiles
      (filesChangedSince (entry.commitHashes.headD [])
        (entry.commitHashes.getLastD [])) options.ignoredFiles
    let packagesChanged := getChangedPackages regexTest repoRoot filesChanged options.packages
    if packagesChanged.isEmpty then none
    else
      match determineReleaseType entry.changelogMessage
          (options.releaseRules.getD defaultReleaseRules) with
      | none => none
      | some releaseType =>
        some ⟨packagesChanged.map (fun pkg => ⟨pkg.packageJson.name, releaseType⟩),
              entry.changelogMessage, packagesChanged⟩)).filterMap id

/-- JavaScript `s.replace(/\n$/, '')`: drop one trailing line feed if
present (without the `m` flag, `$` only matches at the very end). -/
def stripTrailingNewline (s : Str) : Str :=
  if s.getLast? = some '\n' then s.dropLast else s

/-- The source's `compareChangeSet`: `a.summary` with one trailing newline
stripped must equal `b.summary` as-is, and the release lists must be
structurally equal (`JSON.stringify` equality of same-shape
`{ name, type }` arrays is structural list equality). -/
def compareChangeSet (a b : Changeset) : Bool :=
  decide (stripTrailingNewline a.summary = b.summary) && decide (a.releases = b.releases)

/-- The source's `difference`: keep the elements of `a` with no
`compareChangeSet`-equal counterpart in `b`. -/
def difference (a b : List Changeset) : List Changeset :=
  a.filter (fun changeA => !b.any (fun changeB => compareChangeSet changeA changeB))

/-- The dedup dispatch in the CLI entry point:
`currentChangesets.length === 0 ? changesets : difference(changesets, currentChangesets)`. -/
def selectNewChangesets (changesets currentChangesets : List Changeset) : List Changeset :=
  if currentChangesets.length = 0 then changesets
  else difference changesets currentChangesets

/-- The conventional-commit shape as the specification words it (for
comparison with the source's `isConventionalCommit`): a known type prefix,
optionally a parenthesized scope, an optional `!` marker, then a colon. -/
def specIsConventionalCommit (commit : Str) : Bool :=
  defaultCommitTypes.any (fun commitType =>
    commitType.type.isPrefixOf commit &&
      (matchesBangColon (commit.drop commitType.type.length) ||
        (match commit.drop commitType.type.length with
         | '(' :: rest => scopeCloseSearch rest
         | _ => false)))

/-- Concatenation of the hash lists of a list of logical units, in order. -/
def unitHashes (units : List ConventionalMessagesToCommits) : List Str :=
  (units.map (fun u => u.commitHashes)).flatten

/-- The first-matching-rule predicate of the classifier loop, as a single
boolean disjunction (used to describe `findReleaseRule` via `List.find?`). -/
def ruleMatches (msg ct : Str) (rule : ReleaseRule) : Bool :=
  (rule.breaking && isBreakingChange msg) || (rule.revert && isRevertChange msg) ||
    (match rule.type with
     | some t => !t.isEmpty && t == ct
     | none => false)

theorem unitHashes_append (a b : List ConventionalMessagesToCommits) :
    unitHashes (a ++ b) = unitHashes a ++ unitHashes b := by
  unfold unitHashes
  rw [List.map_append, List.flatten_append]

theorem associateStep_of_getLast?_none (acc : List ConventionalMessagesToCommits)
    (curr : Commit) (h : acc.getLast? = none) :
    associateStep acc curr = [⟨curr.commitMessage, [curr.commitHash]⟩] := by
  unfold associateStep
  rw [h]

theorem associateStep_of_getLast?_some (acc : List ConventionalMessagesToCommits)
    (curr : Commit) (last : ConventionalMessagesToCommits)
    (h : acc.getLast? = some last) :
    associateStep acc curr =
      if isConventionalCommit curr.commitMessage then
        if isConventionalCommit last.changelogMessage then
          acc ++ [⟨curr.commitMessage, [curr.commitHash]⟩]
        else
          acc.dropLast ++ [⟨curr.commitMessage, last.commitHashes ++ [curr.commitHash]⟩]
      else
        acc.dropLast ++ [⟨last.changelogMessage, last.commitHashes ++ [curr.commitHash]⟩] := by
  unfold associateStep
  rw [h]

theorem associateStep_ne_nil (acc : List ConventionalMessagesToCommits) (curr : Commit) :
    associateStep acc curr ≠ [] := by
  cases h : acc.getLast? with
  | none =>
    rw [associateStep_of_getLast?_none acc curr h]
    simp
  | some last =>
    rw [associateStep_of_getLast?_some acc curr last h]
    split
    · split
      · simp
      · simp
    · simp

theorem unitHashes_associateStep (acc : List ConventionalMessagesToCommits) (curr : Commit) :
    unitHashes (associateStep acc curr) = unitHashes acc ++ [curr.commitHash] := by
  cases h : acc.getLast? with
  | none =>
    rw [associateStep_of_getLast?_none acc curr h, List.getLast?_eq_none_iff.mp h]
    rfl
  | some last =>
    have hdec : acc.dropLast ++ [last] = acc :=
      List.dropLast_append_getLast? last (by simp [h])
    have hacc : unitHashes acc = unitHashes acc.dropLast ++ last.commitHashes := by
      conv_lhs => rw [← hdec]
      rw [unitHashes_append]
      simp [unitHashes]
    rw [associateStep_of_getLast?_some acc curr last h]
    split
    · split
      · rw [unitHashes_append]
        rfl
      · rw [unitHashes_append, hacc]
        simp [unitHashes]
    · rw [unitHashes_append, hacc]
      simp [unitHashes]

theorem unitHashes_foldl (cs : List Commit) (acc : List ConventionalMessagesToCommits) :
    unitHashes (cs.foldl associateStep acc) =
      unitHashes acc ++ cs.map (fun c => c.commitHash) := by
  induction cs generalizing acc with
  | nil => simp
  | cons c cs ih =>
    rw [List.foldl_cons, ih, unitHashes_associateStep]
    simp

theorem associateStep_hashes_ne_nil (acc : List ConventionalMessagesToCommits) (curr : Commit)
    (h : ∀ u ∈ acc, u.commitHashes ≠ []) :
    ∀ u ∈ associateStep acc curr, u.commitHashes ≠ [] := by
  cases hl : acc.getLast? with
  | none =>
    rw [associateStep_of_getLast?_none acc curr hl]
    simp
  | some last =>
    have hlast : last.commitHashes ≠ [] := by
      refine h last ?_
      have hdec : acc.dropLast ++ [last] = acc :=
        List.dropLast_append_getLast? last (by simp [hl])
      rw [← hdec]
      simp
    have hdl : ∀ u ∈ acc.dropLast, u.commitHashes ≠ [] :=
      fun u hu => h u ((List.dropLast_sublist acc).mem hu)
    rw [associateStep_of_getLast?_some acc curr last hl]
    split
    · split
      · intro u hu
        rcases List.mem_append.mp hu with h1 | h1
        · exact h u h1
        · simp at h1
          subst h1
          simp
      · intro u hu
        rcases List.mem_append.mp hu with h1 | h1
        · exact hdl u h1
        · simp at h1
          subst h1
          simp
    · intro u hu
      rcases List.mem_append.mp hu with h1 | h1
      · exact hdl u h1
      · simp at h1
        subst h1
        simp [hlast]

theorem foldl_hashes_ne_nil (cs : List Commit) (acc : List ConventionalMessagesToCommits)
    (h : ∀ u ∈ acc, u.commitHashes ≠ []) :
    ∀ u ∈ cs.foldl associateStep acc, u.commitHashes ≠ [] := by
  induction cs generalizing acc with
  | nil => simpa using h
  | cons c cs ih =>
    rw [List.foldl_cons]
    exact ih (associateStep acc c) (associateStep_hashes_ne_nil acc c h)

theorem foldl_associateStep_ne_nil (cs : List Commit)
    (acc : List ConventionalMessagesToCommits) (h : acc ≠ []) :
    cs.foldl associateStep acc ≠ [] := by
  induction cs generalizing acc with
  | nil => simpa using h
  | cons c cs ih =>
    rw [List.foldl_cons]
    exact ih (associateStep acc c) (associateStep_ne_nil acc c)

/-- C10: the grouper loses and duplicates no commits — concatenating the
output units' hash lists in order yields the input hashes in order, every
output unit has a non-empty hash list, and the empty input yields the
empty output. -/
theorem c10_grouper_conserves_commits (commits : List Commit) :
    unitHashes (associateCommitsToConventionalCommitMessages commits) =
      commits.map (fun c => c.commitHash) ∧
    (associateCommitsToConventionalCommitMessages commits).all
      (fun u => !u.commitHashes.isEmpty) = true ∧
    associateCommitsToConventionalCommitMessages ([] : List Commit) = [] := by
  refine ⟨?_, ?_, rfl⟩
  · unfold associateCommitsToConventionalCommitMessages
    rw [unitHashes_foldl]
    rfl
  · rw [List.all_eq_true]
    intro u hu
    have hne : u.commitHashes ≠ [] :=
      foldl_hashes_ne_nil commits [] (by simp) u hu
    simp only [Bool.not_eq_true']
    rw [← Bool.not_eq_true, List.isEmpty_iff]
    exact hne

/-- C1: each commit after the first is handled by exactly the three rules
of the grouper: conventional on conventional starts a new unit with just
this hash; conventional on non-conventional replaces the last unit's
message and appends the hash; non-conventional appends the hash and keeps
the message. -/
theorem c1_grouper_subsequent_commit_rules (cs : List Commit) (c : Commit)
    (last : ConventionalMessagesToCommits)
    (h : (associateCommitsToConventionalCommitMessages cs).getLast? = some last) :
    associateCommitsToConventionalCommitMessages (cs ++ [c]) =
      if isConventionalCommit c.commitMessage then
        if isConventionalCommit last.changelogMessage then
          associateCommitsToConventionalCommitMessages cs ++
            [⟨c.commitMessage, [c.commitHash]⟩]
        else
          (associateCommitsToConventionalCommitMessages cs).dropLast ++
            [⟨c.commitMessage, last.commitHashes ++ [c.commitHash]⟩]
      else
        (associateCommitsToConventionalCommitMessages cs).dropLast ++
          [⟨last.changelogMessage, last.commitHashes ++ [c.commitHash]⟩] := by
  unfold associateCommitsToConventionalCommitMessages at *
  rw [List.foldl_append, List.foldl_cons, List.foldl_nil,
    associateStep_of_getLast?_some _ c last h]

/-- Witness for C1: the commit "wip" after the conventional "feat: a" is
folded into that unit by the third rule. -/
theorem c1_grouper_subsequent_commit_rules_witness :
    associateCommitsToConventionalCommitMessages
      [⟨"h1".toList, "feat: a".toList⟩, ⟨"h2".toList, "wip".toList⟩] =
      [⟨"feat: a".toList, ["h1".toList, "h2".toList]⟩] := by
  have h := c1_grouper_subsequent_commit_rules [⟨"h1".toList, "feat: a".toList⟩]
    ⟨"h2".toList, "wip".toList⟩ ⟨"feat: a".toList, ["h1".toList]⟩ (by decide)
  exact h.trans (by decide)

theorem associateStep_head_conv (m : Str) (hs : List Str)
    (acc' : List ConventionalMessagesToCommits) (curr : Commit)
    (hconv : isConventionalCommit m = true) :
    ∃ hs' acc'', associateStep (⟨m, hs⟩ :: acc') curr = ⟨m, hs'⟩ :: acc'' := by
  rcases List.eq_nil_or_concat acc' with rfl | ⟨l, last, rfl⟩
  · rw [associateStep_of_getLast?_some [⟨m, hs⟩] curr ⟨m, hs⟩ (List.getLast?_singleton _)]
    by_cases hc : isConventionalCommit curr.commitMessage = true
    · rw [if_pos hc, if_pos hconv]
      exact ⟨hs, [⟨curr.commitMessage, [curr.commitHash]⟩], rfl⟩
    · rw [if_neg hc]
      exact ⟨hs ++ [curr.commitHash], [], by simp⟩
  · have hg : ((⟨m, hs⟩ : ConventionalMessagesToCommits) :: l.concat last).getLast? =
        some last := by
      rw [List.concat_eq_append, show ((⟨m, hs⟩ : ConventionalMessagesToCommits) ::
        (l ++ [last])) = (⟨m, hs⟩ :: l) ++ [last] from by simp, List.getLast?_concat]
    have hd : ((⟨m, hs⟩ : ConventionalMessagesToCommits) :: l.concat last).dropLast =
        ⟨m, hs⟩ :: l := by
      rw [List.concat_eq_append, show ((⟨m, hs⟩ : ConventionalMessagesToCommits) ::
        (l ++ [last])) = (⟨m, hs⟩ :: l) ++ [last] from by simp, List.dropLast_concat]
    rw [associateStep_of_getLast?_some _ curr last hg]
    by_cases hc : isConventionalCommit curr.commitMessage = true
    · by_cases hl2 : isConventionalCommit last.changelogMessage = true
      · rw [if_pos hc, if_pos hl2]
        exact ⟨hs, l.concat last ++ [⟨curr.commitMessage, [curr.commitHash]⟩], by simp⟩
      · rw [if_pos hc, if_neg hl2, hd]
        exact ⟨hs, l ++ [⟨curr.commitMessage, last.commitHashes ++ [curr.commitHash]⟩],
          by simp⟩
    · rw [if_neg hc, hd]
      exact ⟨hs, l ++ [⟨last.changelogMessage, last.commitHashes ++ [curr.commitHash]⟩],
        by simp⟩

theorem foldl_head_conv (cs : List Commit) (m : Str) (hs : List Str)
    (acc' : List ConventionalMessagesToCommits) (hconv : isConventionalCommit m = true) :
    ∃ hs' acc'', cs.foldl associateStep (⟨m, hs⟩ :: acc') = ⟨m, hs'⟩ :: acc'' := by
  induction cs generalizing hs acc' with
  | nil => exact ⟨hs, acc', rfl⟩
  | cons c cs ih =>
    obtain ⟨hs1, acc1, hstep⟩ := associateStep_head_conv m hs acc' c hconv
    rw [List.foldl_cons, hstep]
    exact ih hs1 acc1

/-- C5 (amended): on a non-empty commit list the first logical unit always
exists; if the FIRST commit's message is conventional, the first unit's
message is that commit's message.  (When the first commit is not
conventional, the first subsequent conventional commit replaces the
message — see the counterexample.) -/
theorem c5_first_unit (c : Commit) (cs : List Commit) :
    associateCommitsToConventionalCommitMessages (c :: cs) ≠ [] ∧
    (isConventionalCommit c.commitMessage = true →
      (associateCommitsToConventionalCommitMessages (c :: cs)).head?.map
        (fun u => u.changelogMessage) = some c.commitMessage) := by
  constructor
  · unfold associateCommitsToConventionalCommitMessages
    rw [List.foldl_cons]
    exact foldl_associateStep_ne_nil cs _ (associateStep_ne_nil [] c)
  · intro hconv
    unfold associateCommitsToConventionalCommitMessages
    rw [List.foldl_cons]
    have hstep : associateStep [] c = [⟨c.commitMessage, [c.commitHash]⟩] := rfl
    rw [hstep]
    obtain ⟨hs', acc'', heq⟩ := foldl_head_conv cs c.commitMessage [c.commitHash] [] hconv
    rw [heq]
    rfl

/-- Witness for C5 at a conventional first commit. -/
theorem c5_first_unit_witness :
    isConventionalCommit "feat: a".toList = true ∧
    (associateCommitsToConventionalCommitMessages
      [⟨"h1".toList, "feat: a".toList⟩, ⟨"h2".toList, "wip".toList⟩]).head?.map
      (fun u => u.changelogMessage) = some "feat: a".toList :=
  ⟨by decide, (c5_first_unit ⟨"h1".toList, "feat: a".toList⟩
    [⟨"h2".toList, "wip".toList⟩]).2 (by decide)⟩

/-- Counterexample to C5 as stated: with a non-conventional first commit
"wip" followed by the conventional "feat: x", the first unit's message is
"feat: x", not the first commit's message "wip". -/
theorem c5_counterexample :
    (associateCommitsToConventionalCommitMessages
      [⟨"h1".toList, "wip".toList⟩, ⟨"h2".toList, "feat: x".toList⟩]).head?.map
      (fun u => u.changelogMessage) = some "feat: x".toList ∧
    "feat: x".toList ≠ "wip".toList := by
  exact ⟨by decide, by decide⟩

theorem findReleaseRule_eq_find? (rules : List ReleaseRule) (ct msg : Str) :
    findReleaseRule rules ct msg =
      (rules.find? (ruleMatches msg ct)).bind (fun rule => rule.release) := by
  induction rules with
  | nil => rfl
  | cons r rs ih =>
    by_cases h : ruleMatches msg ct r = true
    · rw [List.find?_cons_of_pos rs h, Option.some_bind]
      unfold findReleaseRule
      cases hb1 : (r.breaking && isBreakingChange msg) with
      | true => rw [if_pos rfl]
      | false =>
        rw [if_neg (by simp)]
        cases hb2 : (r.revert && isRevertChange msg) with
        | true => rw [if_pos rfl]
        | false =>
          rw [if_neg (by simp)]
          have hb3 : (match r.type with
              | some t => !t.isEmpty && t == ct
              | none => false) = true := by
            have h' := h
            unfold ruleMatches at h'
            rw [hb1, hb2] at h'
            simpa using h'
          rw [if_pos hb3]
    · rw [List.find?_cons_of_neg rs h]
      have hb : ruleMatches msg ct r = false := by
        simpa using h
      unfold ruleMatches at hb
      rw [Bool.or_eq_false_iff, Bool.or_eq_false_iff] at hb
      obtain ⟨⟨hb1, hb2⟩, hb3⟩ := hb
      unfold findReleaseRule
      rw [if_neg (by simp [hb1]), if_neg (by simp [hb2]), if_neg (by simp [hb3]), ih]

/-- C2 (amended): the classifier first requires an extractable leading type
token; given one, it returns the release of the first rule in table order
that matches, and since the breaking rule heads the default table, every
message WITH an extractable type token that is a breaking change is
classified major; in particular "feat!: break API" is major, not minor.
(Without a type token even a breaking message yields no release — see the
counterexample.) -/
theorem c2_breaking_rule_precedence :
    (∀ msg rules, determineReleaseType msg rules =
      (getCommitType msg).bind (fun ct =>
        (rules.find? (ruleMatches msg ct)).bind (fun rule => rule.release))) ∧
    (∀ msg, (getCommitType msg).isSome = true → isBreakingChange msg = true →
      determineReleaseType msg defaultReleaseRules = some Severity.major) ∧
    determineReleaseType "feat!: break API".toList defaultReleaseRules =
      some Severity.major := by
  refine ⟨?_, ?_, ?_⟩
  · intro msg rules
    unfold determineReleaseType
    cases getCommitType msg with
    | none => rfl
    | some ct => exact findReleaseRule_eq_find? rules ct msg
  · intro msg h1 h2
    obtain ⟨ct, hct⟩ := Option.isSome_iff_exists.mp h1
    unfold determineReleaseType
    rw [hct]
    unfold defaultReleaseRules findReleaseRule
    rw [if_pos (by simp [h2])]
  · decide

/-- Witness for C2 at "feat!: break API": it has an extractable type token,
it is a breaking change, and the classifier reports major. -/
theorem c2_breaking_rule_precedence_witness :
    (getCommitType "feat!: break API".toList).isSome = true ∧
    isBreakingChange "feat!: break API".toList = true ∧
    determineReleaseType "feat!: break API".toList defaultReleaseRules =
      some Severity.major :=
  ⟨by decide, by decide,
    c2_breaking_rule_precedence.2.1 "feat!: break API".toList (by decide) (by decide)⟩

/-- Counterexample to C2 as stated: the message "BREAKING CHANGE: drop
everything" is a breaking change by the claim's own definition (it contains
the literal), yet the classifier returns no release at all (its leading
word "BREAKING" is not followed by an optional scope, optional bang and a
colon, so no type token is extractable), not major. -/
theorem c2_counterexample :
    isBreakingChange "BREAKING CHANGE: drop everything".toList = true ∧
    determineReleaseType "BREAKING CHANGE: drop everything".toList defaultReleaseRules ≠
      some Severity.major := by
  exact ⟨by decide, by decide⟩

/-- C4 (amended): the dedup comparison holds iff the FIRST changeset's
summary with one trailing newline stripped equals the second changeset's
summary as-is (the stripping is one-sided), and the release sequences are
structurally equal in order. -/
theorem c4_compare_characterization (a b : Changeset) :
    compareChangeSet a b = true ↔
      (stripTrailingNewline a.summary = b.summary ∧ a.releases = b.releases) := by
  unfold compareChangeSet
  rw [Bool.and_eq_true, decide_eq_true_eq, decide_eq_true_eq]

/-- Witness for C4 at a concrete pair whose first summary carries the
trailing newline. -/
theorem c4_compare_characterization_witness :
    compareChangeSet ⟨[], "fix: a\n".toList, []⟩ ⟨[], "fix: a".toList, []⟩ = true ↔
      (stripTrailingNewline "fix: a\n".toList = "fix: a".toList ∧
        ([] : List Release) = []) :=
  c4_compare_characterization ⟨[], "fix: a\n".toList, []⟩ ⟨[], "fix: a".toList, []⟩

/-- Counterexample to C4 as stated (stripping a trailing newline from BOTH
summaries): a changeset whose summary ends in a newline, compared with an
identical copy, strips to equal summaries with equal releases, yet the
code's comparison returns false because only the left side is stripped. -/
theorem c4_counterexample :
    ¬(compareChangeSet ⟨[], "fix: a\n".toList, []⟩ ⟨[], "fix: a\n".toList, []⟩ = true ↔
      (stripTrailingNewline "fix: a\n".toList = stripTrailingNewline "fix: a\n".toList ∧
        ([] : List Release) = [])) := by
  decide

/-- C3 (amended): adding the surviving candidates to the baseline and
re-running the dedup comparison on the same candidate list yields the empty
list, PROVIDED no candidate's summary ends with a newline (the comparison
strips a trailing newline from the candidate side only, so a candidate
whose summary ends in a newline never compares equal to its own copy — see
the counterexample). -/
theorem c3_dedup_idempotent (cands baseline : List Changeset)
    (h : ∀ c ∈ cands, c.summary.getLast? ≠ some '\n') :
    difference cands (baseline ++ difference cands baseline) = [] := by
  unfold difference
  rw [List.filter_eq_nil_iff]
  intro c hc
  have hself : compareChangeSet c c = true := by
    unfold compareChangeSet
    have hstrip : stripTrailingNewline c.summary = c.summary := by
      unfold stripTrailingNewline
      rw [if_neg (h c hc)]
    simp [hstrip]
  by_cases hb : baseline.any (fun changeB => compareChangeSet c changeB) = true
  · simp [List.any_append, hb]
  · have hcdiff : c ∈ cands.filter
        (fun changeA => !baseline.any (fun changeB => compareChangeSet changeA changeB)) := by
      rw [List.mem_filter]
      refine ⟨hc, ?_⟩
      simp only [Bool.not_eq_true'] at hb ⊢
      simpa using hb
    have hany : (cands.filter (fun changeA =>
        !baseline.any (fun changeB => compareChangeSet changeA changeB))).any
        (fun changeB => compareChangeSet c changeB) = true := by
      rw [List.any_eq_true]
      exact ⟨c, hcdiff, hself⟩
    simp [List.any_append, hany]

/-- Witness for C3 at a newline-free candidate against an empty baseline. -/
theorem c3_dedup_idempotent_witness :
    (∀ c ∈ [(⟨[], "fix: a".toList, []⟩ : Changeset)], c.summary.getLast? ≠ some '\n') ∧
    difference [(⟨[], "fix: a".toList, []⟩ : Changeset)]
      ([] ++ difference [(⟨[], "fix: a".toList, []⟩ : Changeset)] []) = [] :=
  ⟨by decide, c3_dedup_idempotent [⟨[], "fix: a".toList, []⟩] [] (by decide)⟩

/-- Counterexample to C3 as stated: a single candidate whose summary ends
with a newline survives the first run (empty baseline), is added to the
baseline, and still survives the second run, because the one-sided newline
stripping makes it unequal to its own persisted copy. -/
theorem c3_counterexample :
    difference [(⟨[], "fix: a\n".toList, []⟩ : Changeset)]
      ([] ++ difference [(⟨[], "fix: a\n".toList, []⟩ : Changeset)] []) =
      [(⟨[], "fix: a\n".toList, []⟩ : Changeset)] ∧
    [(⟨[], "fix: a\n".toList, []⟩ : Changeset)] ≠ [] := by
  exact ⟨by decide, by decide⟩

/-- C9: skipping the comparison when the persisted baseline is empty does
not change the result — the difference against an empty baseline is the
candidate list itself, so the fast path of the CLI equals the
always-compare path on every input. -/
theorem c9_empty_baseline_fast_path (cands baseline : List Changeset) :
    difference cands [] = cands ∧
    selectNewChangesets cands baseline = difference cands baseline := by
  have hempty : ∀ l : List Changeset, difference l [] = l := by
    intro l
    unfold difference
    simp
  refine ⟨hempty cands, ?_⟩
  unfold selectNewChangesets
  by_cases hb : baseline.length = 0
  · rw [if_pos hb, List.length_eq_zero.mp hb, hempty]
  · rw [if_neg hb]

/-- C6 (code bug): the source's `isConventionalCommit` accepts
"feat stuff: x", although the documented grammar (type prefix, optional
parenthesized scope, optional bang, colon — `specIsConventionalCommit`)
rejects it: inside the template literal building the regex, `\(` denotes a
plain `(`, so the intended literal scope parentheses become a grouping of
`.*` and ANY text before the colon is accepted.  The `eslint-disable
no-useless-escape` comment in the source shows the escape was believed to
be meaningful, and the neighbouring regex literal in `getCommitType`
implements the intended grammar with properly escaped parentheses.  On
inputs that do follow the documented grammar the two predicates agree. -/
theorem c6_conventional_predicate_divergence :
    isConventionalCommit "feat stuff: x".toList = true ∧
    specIsConventionalCommit "feat stuff: x".toList = false ∧
    getCommitType "feat stuff: x".toList = none ∧
    isConventionalCommit "feat(scope)!: x".toList = true ∧
    specIsConventionalCommit "feat(scope)!: x".toList = true ∧
    isConventionalCommit "wip".toList = false ∧
    specIsConventionalCommit "wip".toList = false := by
  refine ⟨by decide, by decide, by decide, by decide, by decide, by decide, by decide⟩

/-- C8: the ignore filter keeps exactly the files matching no ignore
pattern (a file is dropped iff it matches ANY pattern), the filtered list
is a sublist of the input, and every package reported changed from the
filtered list owes it to some file that matches no ignore pattern — so a
package all of whose changed files are ignored is never reported. -/
theorem c8_ignored_files_filter (files : List Str) (patterns : List (Str → Bool))
    (regexTest : Str → Str → Bool) (repoRoot : Str) (packages : List ManyPkgPackage) :
    (filterFiles files patterns).Sublist files ∧
    (∀ f, f ∈ filterFiles files patterns ↔
      f ∈ files ∧ ∀ p ∈ patterns, p f = false) ∧
    (∀ pkg, pkg ∈ getChangedPackages regexTest repoRoot
        (filterFiles files patterns) packages →
      ∃ f, f ∈ files ∧ (∀ p ∈ patterns, p f = false) ∧
        regexTest f (replaceFirst pkg.dir (repoRoot ++ "/".toList)) = true) := by
  have hchar : ∀ f, f ∈ filterFiles files patterns ↔
      f ∈ files ∧ ∀ p ∈ patterns, p f = false := by
    intro f
    unfold filterFiles
    rw [List.mem_filter, List.all_eq_true]
    simp only [Bool.not_eq_true']
  refine ⟨List.filter_sublist files, hchar, ?_⟩
  intro pkg hpkg
  unfold getChangedPackages at hpkg
  rw [List.mem_filter] at hpkg
  obtain ⟨-, hany⟩ := hpkg
  rw [List.any_eq_true] at hany
  obtain ⟨f, hf, hmatch⟩ := hany
  obtain ⟨hfiles, hpats⟩ := (hchar f).mp hf
  exact ⟨f, hfiles, hpats, hmatch⟩

/-- Witness for C8 at one file, no ignore patterns, one package matched by
a prefix test. -/
theorem c8_ignored_files_filter_witness :
    (⟨"packages/p1".toList, ⟨"p1".toList⟩⟩ : ManyPkgPackage) ∈
      getChangedPackages (fun file dir => dir.isPrefixOf file) "/repo".toList
        (filterFiles ["packages/p1/a.ts".toList] [])
        [⟨"packages/p1".toList, ⟨"p1".toList⟩⟩] ∧
    (∃ f, f ∈ ["packages/p1/a.ts".toList] ∧
      (∀ p ∈ ([] : List (Str → Bool)), p f = false) ∧
      (fun file dir => dir.isPrefixOf file) f
        (replaceFirst "packages/p1".toList ("/repo".toList ++ "/".toList)) = true) :=
  ⟨by decide,
    (c8_ignored_files_filter ["packages/p1/a.ts".toList] []
      (fun file dir => dir.isPrefixOf file) "/repo".toList
      [⟨"packages/p1".toList, ⟨"p1".toList⟩⟩]).2.2
      ⟨"packages/p1".toList, ⟨"p1".toList⟩⟩ (by decide)⟩

/-- C7: per logical unit the assembler emits nothing when the filtered file
impact yields no changed package or the classification gives no release
(which covers messages with no extractable type token, third conjunct);
otherwise it emits exactly one changeset with one release per impacted
package, all at the same severity, the unit's message as summary, and the
impacted packages as `packagesChanged`. -/
theorem c7_assembler_per_unit (filesChangedSince : Str → Str → List Str)
    (regexTest : Str → Str → Bool) (repoRoot : Str)
    (entry : ConventionalMessagesToCommits) (options : ChangesetOptions)
    (pkgs : List ManyPkgPackage)
    (hpkgs : pkgs = getChangedPackages regexTest repoRoot
      (filterFiles (filesChangedSince (entry.commitHashes.headD [])
        (entry.commitHashes.getLastD [])) options.ignoredFiles) options.packages) :
    ((pkgs = [] ∨ determineReleaseType entry.changelogMessage
        (options.releaseRules.getD defaultReleaseRules) = none) →
      conventionalMessagesWithCommitsToChangesets filesChangedSince regexTest repoRoot
        [entry] options = []) ∧
    (∀ sev, pkgs ≠ [] →
      determineReleaseType entry.changelogMessage
        (options.releaseRules.getD defaultReleaseRules) = some sev →
      conventionalMessagesWithCommitsToChangesets filesChangedSince regexTest repoRoot
        [entry] options =
        [⟨pkgs.map (fun pkg => ⟨pkg.packageJson.name, sev⟩),
          entry.changelogMessage, pkgs⟩]) ∧
    (∀ msg rules, getCommitType msg = none → determineReleaseType msg rules = none) := by
  have key : ∀ o : Option Changeset, List.filterMap id [o] = o.toList := by
    intro o
    cases o <;> rfl
  refine ⟨?_, ?_, ?_⟩
  · intro h
    unfold conventionalMessagesWithCommitsToChangesets
    simp only [List.map_cons, List.map_nil, key]
    rw [← hpkgs]
    rcases h with h | h
    · simp [h]
    · simp [h]
  · intro sev hne hsev
    unfold conventionalMessagesWithCommitsToChangesets
    simp only [List.map_cons, List.map_nil, key]
    rw [← hpkgs, hsev]
    have hemp : pkgs.isEmpty = false := by
      rw [← Bool.not_eq_true, List.isEmpty_iff]
      exact hne
    simp [hemp]
  · intro msg rules hmsg
    unfold determineReleaseType
    rw [hmsg]

/-- Witness for C7 at a unit "feat: x" touching one package via a prefix
regex test: one changeset at severity minor. -/
theorem c7_assembler_per_unit_witness :
    determineReleaseType "feat: x".toList
      ((none : Option (List ReleaseRule)).getD defaultReleaseRules) =
      some Severity.minor ∧
    conventionalMessagesWithCommitsToChangesets
      (fun _ _ => ["packages/p1/a.ts".toList]) (fun file dir => dir.isPrefixOf file)
      "/repo".toList [⟨"feat: x".toList, ["h1".toList, "h2".toList]⟩]
      ⟨[], [⟨"packages/p1".toList, ⟨"p1".toList⟩⟩], none⟩ =
      [⟨[⟨"p1".toList, Severity.minor⟩], "feat: x".toList,
        [⟨"packages/p1".toList, ⟨"p1".toList⟩⟩]⟩] := by
  refine ⟨by decide, ?_⟩
  have h := (c7_assembler_per_unit (fun _ _ => ["packages/p1/a.ts".toList])
    (fun file dir => dir.isPrefixOf file) "/repo".toList
    ⟨"feat: x".toList, ["h1".toList, "h2".toList]⟩
    ⟨[], [⟨"packages/p1".toList, ⟨"p1".toList⟩⟩], none⟩
    [⟨"packages/p1".toList, ⟨"p1".toList⟩⟩] (by decide)).2.1 Severity.minor
    (by decide) (by decide)
  exact h.trans (by decide)

end ChangesetCC
